import Mathlib

/-!
Verification of the congestion-control core of the `vibe` repository
(send-side bandwidth estimation and pacing for RTP).

The Go sources are shallowly embedded: `time.Time` and `time.Duration`
values become `Int` nanosecond counts, Go slices become `List`s, Go maps
used as association tables become association lists, and fallible code
returns `Option`/`Except`-style results.  Each definition mirrors one Go
function; the theorems at the end of the file settle the specification
claims about them.
-/

namespace Vibe

/-- Acknowledgment record produced by the feedback adapter (package `cc`).
Times are nanosecond counts (`time.Time`/`time.Duration` are nanoseconds). -/
structure Acknowledgment where
  sequenceNumber : Nat
  size : Int
  departure : Int
  arrival : Int
deriving DecidableEq, Repr

/-! ### gcc/rtt.go: arrival group accumulator -/

/-- State of `arrivalGroupAccumulator` (gcc/rtt.go). -/
structure ArrivalGroupAccumulator where
  next : List Acknowledgment
  burstInterval : Int
  maxBurstDuration : Int
deriving DecidableEq, Repr

/-- Mirrors `newArrivalGroupAccumulator`: burst interval 5 ms,
max burst duration 100 ms (nanoseconds). -/
def newArrivalGroupAccumulator : ArrivalGroupAccumulator :=
  { next := [], burstInterval := 5000000, maxBurstDuration := 100000000 }

/-- Mirrors `(*arrivalGroupAccumulator).onPacketAcked` (gcc/rtt.go).
Returns the updated accumulator and the emitted group (`none` mirrors the
Go `nil` return). -/
def agaOnPacketAcked (a : ArrivalGroupAccumulator) (ack : Acknowledgment) :
    ArrivalGroupAccumulator × Option (List Acknowledgment) :=
  match a.next with
  | [] => ({ a with next := [ack] }, none)
  | first :: rest =>
    if ack.departure - first.departure < a.burstInterval then
      ({ a with next := (first :: rest) ++ [ack] }, none)
    else
      let sendTimeDelta := ack.departure - first.departure
      let arrivalTimeDeltaLast :=
        ack.arrival - ((first :: rest).getLast (List.cons_ne_nil _ _)).arrival
      let arrivalTimeDeltaFirst := ack.arrival - first.arrival
      let propagationDelta := arrivalTimeDeltaFirst - sendTimeDelta
      if propagationDelta < 0 ∧ arrivalTimeDeltaLast ≤ a.burstInterval ∧
          arrivalTimeDeltaFirst < a.maxBurstDuration then
        ({ a with next := (first :: rest) ++ [ack] }, none)
      else
        ({ a with next := [ack] }, some (first :: rest))

/-! ### gcc delay rate controller (control flow of `OnPacketAcked`)

`DelayRateController.OnPacketAcked` feeds every emitted group with at
least the empty-group guard into the Kalman filter / overuse detector.
The floating-point filter state does not influence which groups are
processed, so the embedding records the processed groups themselves. -/

/-- Group-tracking state of `DelayRateController`
(gcc/delay_rate_controller.go): the accumulator, the previously
processed group `last`, and the list of groups that reached the
inter-group delay computation. -/
structure DelayController where
  aga : ArrivalGroupAccumulator
  last : List Acknowledgment
  processed : List (List Acknowledgment)
deriving DecidableEq, Repr

/-- Mirrors `NewDelayRateController` (group-tracking part). -/
def newDelayController : DelayController :=
  { aga := newArrivalGroupAccumulator, last := [], processed := [] }

/-- Mirrors the control flow of `(*DelayRateController).OnPacketAcked`:
a `nil` emission returns, an empty emission is ignored, the first
emission only seeds `last`, and every later emission is processed
(inter-group delay, Kalman update) and becomes the new `last`. -/
def dcOnPacketAcked (c : DelayController) (ack : Acknowledgment) : DelayController :=
  match agaOnPacketAcked c.aga ack with
  | (aga', none) => { c with aga := aga' }
  | (aga', some next) =>
    if next.length = 0 then { c with aga := aga' }
    else if c.last.length = 0 then { c with aga := aga', last := next }
    else { aga := aga', last := next, processed := c.processed ++ [next] }

/-- Feeds a list of acknowledgments to the controller in order. -/
def dcRun (c : DelayController) (acks : List Acknowledgment) : DelayController :=
  acks.foldl dcOnPacketAcked c

/-! ### gcc AIMD rate-controller state machine

`state` and `usage` are Go `int`-valued enumerations; the embedding
keeps them as `Int` with the source's constants. -/

/-- Constant `stateDecrease = -1`. -/
def stateDecrease : Int := -1
/-- Constant `stateHold = 0`. -/
def stateHold : Int := 0
/-- Constant `stateIncrease = 1`. -/
def stateIncrease : Int := 1
/-- Constant `usageUnder = -1`. -/
def usageUnder : Int := -1
/-- Constant `usageNormal = 0`. -/
def usageNormal : Int := 0
/-- Constant `usageOver = 1`. -/
def usageOver : Int := 1

/-- Mirrors `(state).transition(usage)`: nested switches with the final
`return stateIncrease` default of the Go function. -/
def stateTransition (s u : Int) : Int :=
  if s = stateHold then
    if u = usageOver then stateDecrease
    else if u = usageNormal then stateIncrease
    else if u = usageUnder then stateHold
    else stateIncrease
  else if s = stateIncrease then
    if u = usageOver then stateDecrease
    else if u = usageNormal then stateIncrease
    else if u = usageUnder then stateHold
    else stateIncrease
  else if s = stateDecrease then
    if u = usageOver then stateDecrease
    else if u = usageNormal then stateHold
    else if u = usageUnder then stateHold
    else stateIncrease
  else stateIncrease

/-! ### syncodec/trace_codec.go: TraceCodec quality switching -/

/-- Quality-switching state of `TraceCodec`: the set of quality keys of
the `traces` map and the current quality. -/
structure TraceCodec where
  traceKeys : List String
  currentQuality : String
deriving DecidableEq, Repr

/-- Mirrors `(*TraceCodec).GetCurrentQuality`. -/
def tcGetCurrentQuality (c : TraceCodec) : String := c.currentQuality

/-- Mirrors `(*TraceCodec).SetQuality`: returns the codec state after
the call together with the returned error (`none` is the Go `nil`).
An unknown quality yields the error before the assignment, a known
quality becomes current. -/
def tcSetQuality (c : TraceCodec) (quality : String) : TraceCodec × Option String :=
  if quality ∈ c.traceKeys then ({ c with currentQuality := quality }, none)
  else (c, some "specified quality does not exist in the provided traces")

/-! ### pacing/intervalbudget.go: token bucket

Times are nanosecond counts; `time.Duration.Milliseconds()` is
truncating 64-bit division by 10^6, embedded as `Int.tdiv`. -/

/-- Mirrors `time.Duration.Milliseconds()` (truncated division). -/
def durMilliseconds (d : Int) : Int := d.tdiv 1000000

/-- Mirrors `clip` (pacing/intervalbudget.go). -/
def clip (value minValue maxValue : Int) : Int := min (max value minValue) maxValue

/-- State of `intervalBudget` (pacing/intervalbudget.go). -/
structure IntervalBudget where
  window : Int
  lastIncreased : Int
  targetRateTokensPerMillisec : Int
  maxTokensInBudget : Int
  tokenRemaining : Int
deriving DecidableEq, Repr

/-- Mirrors `(*intervalBudget).increaseBudget`. -/
def increaseBudget (b : IntervalBudget) (now : Int) : IntervalBudget :=
  let deltaTime := now - b.lastIncreased
  let newTokens := b.targetRateTokensPerMillisec * durMilliseconds deltaTime
  { b with lastIncreased := now,
           tokenRemaining := min (b.tokenRemaining + newTokens) b.maxTokensInBudget }

/-- Mirrors `(*intervalBudget).SetTargetRate`. -/
def setTargetRate (b : IntervalBudget) (targetRateBitsPerSec now : Int) : IntervalBudget :=
  let b := increaseBudget b now
  let maxTokens := durMilliseconds b.window * targetRateBitsPerSec
  { b with targetRateTokensPerMillisec := targetRateBitsPerSec,
           maxTokensInBudget := maxTokens,
           tokenRemaining := clip b.tokenRemaining (-maxTokens) maxTokens }

/-- Mirrors `(*intervalBudget).UseBudget`. -/
def useBudget (b : IntervalBudget) (bytes now : Int) : IntervalBudget :=
  let b := increaseBudget b now
  let tokens := bytes * 8000
  { b with tokenRemaining := max (b.tokenRemaining - tokens) (-b.maxTokensInBudget) }

/-- Mirrors `(*intervalBudget).BytesRemaining` (state part; the returned
byte count is `max(tokenRemaining, 0) / 8000`). -/
def bytesRemaining (b : IntervalBudget) (now : Int) : IntervalBudget × Int :=
  let b := increaseBudget b now
  (b, (max b.tokenRemaining 0).tdiv 8000)

/-- Mirrors `newIntervalBudget`. -/
def newIntervalBudget (initialTargetRateBps window now : Int) : IntervalBudget :=
  setTargetRate
    { window := window, lastIncreased := now, targetRateTokensPerMillisec := 0,
      maxTokensInBudget := 0, tokenRemaining := 0 }
    initialTargetRateBps now

/-- One operation on an `intervalBudget`: the public calls plus the
internal refill. -/
inductive BudgetOp where
  | setTargetRate (rate now : Int)
  | useBudget (bytes now : Int)
  | bytesRemaining (now : Int)
  | increaseBudget (now : Int)
deriving DecidableEq, Repr

/-- Timestamp carried by an operation. -/
def BudgetOp.now : BudgetOp → Int
  | .setTargetRate _ t => t
  | .useBudget _ t => t
  | .bytesRemaining t => t
  | .increaseBudget t => t

/-- Applies one operation to the budget. -/
def applyBudgetOp (b : IntervalBudget) : BudgetOp → IntervalBudget
  | .setTargetRate r t => setTargetRate b r t
  | .useBudget n t => useBudget b n t
  | .bytesRemaining t => (bytesRemaining b t).1
  | .increaseBudget t => increaseBudget b t

/-- Applies a sequence of operations in order. -/
def runBudgetOps (b : IntervalBudget) (ops : List BudgetOp) : IntervalBudget :=
  ops.foldl applyBudgetOp b

/-- Checks that operation timestamps are non-decreasing starting from
time `t` and that every `SetTargetRate` rate is non-negative. -/
def chronoNonNegRates (t : Int) : List BudgetOp → Bool
  | [] => true
  | op :: rest =>
    t ≤ op.now &&
    (match op with
     | .setTargetRate r _ => 0 ≤ r
     | _ => true) &&
    chronoNonNegRates op.now rest

/-- Checks additionally that every `UseBudget` byte count is
non-negative. -/
def chronoNonNegOps (t : Int) : List BudgetOp → Bool
  | [] => true
  | op :: rest =>
    t ≤ op.now &&
    (match op with
     | .setTargetRate r _ => 0 ≤ r
     | .useBudget n _ => 0 ≤ n
     | _ => true) &&
    chronoNonNegOps op.now rest

/-! ### pacing/rounrobin.go: round-robin scheduler -/

/-- State of `roundRobin` (pacing/rounrobin.go); SSRCs are `Nat`. -/
structure RoundRobin where
  items : List Nat
  index : Nat
deriving DecidableEq, Repr

/-- Mirrors `(*roundRobin).Next`.  The `none` result mirrors the Go
`(0, false)` return for an empty list; an out-of-range index (which the
Go code never reaches for states built through `Add`/`Remove`) is also
mapped to `none`. -/
def rrNext (rr : RoundRobin) : Option Nat × RoundRobin :=
  if h : rr.index < rr.items.length then
    (some (rr.items.get ⟨rr.index, h⟩),
     { rr with index := (rr.index + 1) % rr.items.length })
  else (none, rr)

/-- Collects the outputs of `n` consecutive `Next` calls, stopping early
on a not-ok result (as the pacing loops do). -/
def rrNextN (rr : RoundRobin) : Nat → List Nat × RoundRobin
  | 0 => ([], rr)
  | n + 1 =>
    match rrNext rr with
    | (some x, rr') =>
      let r := rrNextN rr' n
      (x :: r.1, r.2)
    | (none, rr') => ([], rr')

/-! ### pacing/pacing.go: padding collection (`getPadding`)

The pacer state needed by `getPadding`: the round-robin of RTX-enrolled
SSRCs and the per-SSRC last-packet sizes (`lastPacket[ssrc].MarshalSize()`
in Go, an association list here).  Modelled from the spec: creating the
padding packet (`rtpbuffer.PacketFactoryCopy.NewPacket`, whose source is
not in the repo snapshot) succeeds and the padding packet is "a
retransmission of the last seen packet for that SSRC, rewritten with the
RTX payload type/SSRC", so its marshalled size is the stored one. -/

/-- Pacer state used by `getPadding`. -/
structure PacerState where
  rr : RoundRobin
  lastPacket : List (Nat × Nat)
deriving DecidableEq, Repr

/-- Inner round-robin cycle of `getPadding`: processes the SSRCs served
by one full cycle, returning the padding additions `(ssrc, size)`, the
updated byte count, and whether any packet fitted (`packetFits`). -/
def processCycle (lastPacket : List (Nat × Nat)) (maxBytes : Nat) :
    List Nat → Nat → List (Nat × Nat) × Nat × Bool
  | [], bytes => ([], bytes, false)
  | ssrc :: rest, bytes =>
    match lastPacket.lookup ssrc with
    | none => processCycle lastPacket maxBytes rest bytes
    | some size =>
      if maxBytes - bytes ≤ size then processCycle lastPacket maxBytes rest bytes
      else
        let r := processCycle lastPacket maxBytes rest (bytes + size)
        ((ssrc, size) :: r.1, r.2.1, true)

/-- One iteration of the outer `for bytes < maxBytes` loop body: a full
round-robin cycle (`for range p.roundRobin.Size()`). -/
def paddingCycle (st : PacerState) (maxBytes bytes : Nat) :
    PacerState × List (Nat × Nat) × Nat × Bool :=
  let r := rrNextN st.rr st.rr.items.length
  let p := processCycle st.lastPacket maxBytes r.1 bytes
  ({ st with rr := r.2 }, p)

/-- Outer loop of `getPadding`.  The fuel argument is a bound on the
number of iterations (the Go loop is an unbounded `for`); `none` means
the bound was hit.  Returns the collected padding, the final state and
the final byte count. -/
def getPaddingLoop : Nat → PacerState → Nat → Nat → List (Nat × Nat) →
    Option (List (Nat × Nat) × PacerState × Nat)
  | fuel, st, maxBytes, bytes, acc =>
    if bytes < maxBytes then
      match fuel with
      | 0 => none
      | fuel + 1 =>
        let r := paddingCycle st maxBytes bytes
        if r.2.2.2 then getPaddingLoop fuel r.1 maxBytes r.2.2.1 (acc ++ r.2.1)
        else some (acc ++ r.2.1, r.1, r.2.2.1)
    else some (acc, st, bytes)

/-- Mirrors `(*Interceptor).getPadding(maxBytes)`. -/
def getPadding (st : PacerState) (maxBytes : Nat) :
    Option (List (Nat × Nat) × PacerState × Nat) :=
  if st.rr.items.length = 0 then some ([], st, 0)
  else getPaddingLoop (maxBytes + 1) st maxBytes 0 []

/-- Total marshalled size of a padding list. -/
def paddingTotal (l : List (Nat × Nat)) : Nat := (l.map (·.2)).sum

/-! ### sender/sender.go: TraceCodecSource qualities -/

/-- Configuration of one quality level (`QualityConfig`). -/
structure QualityConfig where
  name : String
  bitrate : Int
deriving DecidableEq, Repr

/-- One entry of the list returned by `GetQualities` (`Quality`). -/
structure Quality where
  name : String
  bitrate : Int
  active : Bool
deriving DecidableEq, Repr

/-- State of `TraceCodecSource`: the configured qualities and the
wrapped `TraceCodec`.  `NewTraceCodecSource` keys the codec's trace map
by the configured quality names (`loadTraceFiles`). -/
structure TraceCodecSource where
  qualities : List QualityConfig
  codec : TraceCodec
deriving DecidableEq, Repr

/-- Mirrors `NewTraceCodecSource` state construction: the trace keys are
the configured quality names and the initial quality is validated
against them (`syncodec.WithInitialQuality`). -/
def newTraceCodecSource (qualities : List QualityConfig) (initialQuality : String) :
    Option TraceCodecSource :=
  if initialQuality ∈ qualities.map QualityConfig.name then
    some { qualities := qualities,
           codec := { traceKeys := qualities.map QualityConfig.name,
                      currentQuality := initialQuality } }
  else none

/-- Mirrors `(*TraceCodecSource).GetQualities`: builds the list from the
configured qualities, marking the codec's current quality active, then
sorts by ascending bitrate (`sort.Slice`). -/
def getQualities (s : TraceCodecSource) : List Quality :=
  (s.qualities.map fun q =>
      { name := q.name, bitrate := q.bitrate,
        active := q.name == s.codec.currentQuality }).mergeSort
    fun a b => decide (a.bitrate ≤ b.bitrate)

/-- Mirrors `(*TraceCodecSource).SetQuality` (delegates to the codec);
the Bool records whether the call succeeded. -/
def sourceSetQuality (s : TraceCodecSource) (quality : String) :
    TraceCodecSource × Bool :=
  let r := tcSetQuality s.codec quality
  ({ s with codec := r.1 }, r.2.isNone)

/-! ### sender/bitrateallocator.go: simulcast bitrate allocator

A simulcast source is embedded as its `GetQualities` list; `SetQuality`
rewrites the active flags by name (the behaviour of a
`TraceCodecSource`-backed source with fixed configured qualities).
`targetVideoBitrate` (`int(float64(targetBitrate) * 0.8)` in Go) is a
parameter of the embedding, so the theorems hold for whatever integer
the float computation produces. -/

/-- Mirrors the effect of `source.SetQuality(name)` on the
`GetQualities` list: `none` is the Go error for an unknown name. -/
def setQualityByName (qs : List Quality) (name : String) : Option (List Quality) :=
  if qs.any fun q => q.name == name then
    some (qs.map fun q => { q with active := q.name == name })
  else none

/-- Sum of the active bitrates of one source. -/
def activeSum (qs : List Quality) : Int :=
  ((qs.filter fun q => q.active).map Quality.bitrate).sum

/-- Mirrors the `currentBitrate` computation of `SetTargetBitrate`. -/
def currentBitrateOf (sources : List (List Quality)) : Int :=
  (sources.map activeSum).sum

/-- Candidates of the raise loop, in scan order: `(i, j, bitrate)` for
every source `i` and every active quality at position `j` among
`sourceQualities[:len(sourceQualities)-1]`. -/
def raiseCands (sources : List (List Quality)) : List (Nat × Nat × Int) :=
  sources.enum.flatMap fun p =>
    (p.2.take (p.2.length - 1)).enum.filterMap fun q =>
      if q.2.active then some (p.1, q.1, q.2.bitrate) else none

/-- Candidates of the lower loop, in scan order: `(i, j, bitrate)` for
every source `i` and every active quality at position `j` of the slice
`sourceQualities[1:]` (so at position `j+1` of the full list). -/
def lowerCands (sources : List (List Quality)) : List (Nat × Nat × Int) :=
  sources.enum.flatMap fun p =>
    (p.2.drop 1).enum.filterMap fun q =>
      if q.2.active then some (p.1, q.1, q.2.bitrate) else none

/-- Mirrors the raise-loop selection: least bitrate wins, strictly
(`<`) against a running minimum started at `math.MaxInt`. -/
def pickMinCand (l : List (Nat × Nat × Int)) : Option (Nat × Nat × Int) :=
  (l.foldl
    (fun acc c => if c.2.2 < acc.1 then (c.2.2, some c) else acc)
    ((9223372036854775807 : Int), none)).2

/-- Mirrors the lower-loop selection: greatest bitrate wins, strictly
(`>`) against a running maximum started at `0`. -/
def pickMaxCand (l : List (Nat × Nat × Int)) : Option (Nat × Nat × Int) :=
  (l.foldl
    (fun acc c => if acc.1 < c.2.2 then (c.2.2, some c) else acc)
    ((0 : Int), none)).2

/-- Outcome of one allocator loop.  `fail` mirrors a `SetQuality` error
being returned, `panic` a Go runtime panic (slice index out of range),
`nofuel` is a model artifact (iteration bound hit; the Go loop is
unbounded). -/
inductive LoopRes where
  | done (sources : List (List Quality)) (cur : Int)
  | fail
  | panic
  | nofuel
deriving DecidableEq, Repr

/-- Raise loop of `SetTargetBitrate` (`for currentBitrate <
targetVideoBitrate`): raises the selected source to the next-higher
quality `sourceQualities[j+1]` unless that overshoots the target. -/
def raiseLoop : Nat → List (List Quality) → Int → Int → LoopRes
  | 0, sources, cur, target =>
    if cur < target then LoopRes.nofuel else LoopRes.done sources cur
  | fuel + 1, sources, cur, target =>
    if cur < target then
      match pickMinCand (raiseCands sources) with
        | none => LoopRes.done sources cur
        | some (i, j, b) =>
          match sources.get? i with
          | none => LoopRes.panic
          | some qs =>
            match qs.get? (j + 1) with
            | none => LoopRes.panic
            | some nextQuality =>
              let bitrateDifference := nextQuality.bitrate - b
              if target < cur + bitrateDifference then LoopRes.done sources cur
              else
                match setQualityByName qs nextQuality.name with
                | none => LoopRes.fail
                | some qs' =>
                  raiseLoop fuel (sources.set i qs') (cur + bitrateDifference) target
    else LoopRes.done sources cur

/-- Lower loop of `SetTargetBitrate` (`for currentBitrate >
targetVideoBitrate`).  The selected active quality sits at position
`j+1` of the full list but the Go code indexes `sourceQualities[j-1]`;
for `j = 0` that index is `-1`, a runtime panic. -/
def lowerLoop : Nat → List (List Quality) → Int → Int → LoopRes
  | 0, sources, cur, target =>
    if target < cur then LoopRes.nofuel else LoopRes.done sources cur
  | fuel + 1, sources, cur, target =>
    if target < cur then
      match pickMaxCand (lowerCands sources) with
        | none => LoopRes.done sources cur
        | some (i, j, b) =>
          match sources.get? i with
          | none => LoopRes.panic
          | some qs =>
            if j = 0 then LoopRes.panic
            else
              match qs.get? (j - 1) with
              | none => LoopRes.panic
              | some nextQuality =>
                let bitrateDifference := nextQuality.bitrate - b
                if cur + bitrateDifference < target then LoopRes.done sources cur
                else
                  match setQualityByName qs nextQuality.name with
                  | none => LoopRes.fail
                  | some qs' =>
                    lowerLoop fuel (sources.set i qs') (cur + bitrateDifference) target
    else LoopRes.done sources cur

/-- Iteration bound sufficient for both loops on well-formed sources. -/
def allocFuel (sources : List (List Quality)) : Nat :=
  (sources.map List.length).sum + 1

/-- Result of `SetTargetBitrate` on the embedded sources. -/
inductive AllocResult where
  | ok (sources : List (List Quality))
  | fail
  | panic
  | nofuel
deriving DecidableEq, Repr

/-- Mirrors `(*simulcastBitrateAllocator).SetTargetBitrate` with the
already-computed `targetVideoBitrate`. -/
def simulcastSetTarget (sources : List (List Quality)) (targetVideo : Int) : AllocResult :=
  match raiseLoop (allocFuel sources) sources (currentBitrateOf sources) targetVideo with
  | LoopRes.done s1 cur1 =>
    match lowerLoop (allocFuel s1) s1 cur1 targetVideo with
    | LoopRes.done s2 _ => AllocResult.ok s2
    | LoopRes.fail => AllocResult.fail
    | LoopRes.panic => AllocResult.panic
    | LoopRes.nofuel => AllocResult.nofuel
  | LoopRes.fail => AllocResult.fail
  | LoopRes.panic => AllocResult.panic
  | LoopRes.nofuel => AllocResult.nofuel

/-- Well-formedness of one simulcast source as assumed by the claims:
bitrate-sorted qualities, exactly one active, distinct names. -/
def SourceWF (qs : List Quality) : Prop :=
  qs.Pairwise (fun a b => a.bitrate ≤ b.bitrate) ∧
  qs.countP (fun q => q.active) = 1 ∧
  (qs.map Quality.name).Nodup

/-- Well-formedness of a source set. -/
def SourcesWF (sources : List (List Quality)) : Prop :=
  ∀ qs ∈ sources, SourceWF qs

instance : DecidablePred SourceWF := fun qs => by
  unfold SourceWF; infer_instance

instance : DecidablePred SourcesWF := fun sources => by
  unfold SourcesWF; infer_instance

/-! ### Claim-level predicates -/

/-- Token-bound invariant claimed for the pacer budget. -/
def BudgetInv (b : IntervalBudget) : Prop :=
  -b.maxTokensInBudget ≤ b.tokenRemaining ∧ b.tokenRemaining ≤ b.maxTokensInBudget

/-- Internal strengthening of `BudgetInv` used for the induction: the
stored rate and window are non-negative (hence so is the token cap). -/
def BudgetWF (b : IntervalBudget) : Prop :=
  BudgetInv b ∧ 0 ≤ b.maxTokensInBudget ∧ 0 ≤ b.targetRateTokensPerMillisec ∧ 0 ≤ b.window

instance : DecidablePred BudgetInv := fun b => by
  unfold BudgetInv; infer_instance

instance : DecidablePred BudgetWF := fun b => by
  unfold BudgetWF BudgetInv; infer_instance

/-- Configuration well-formedness of a `TraceCodecSource` as assumed by
the claims: distinct quality names, trace keys as built by
`loadTraceFiles`, and a current quality among the configured names. -/
def SourceConfigWF (s : TraceCodecSource) : Prop :=
  (s.qualities.map QualityConfig.name).Nodup ∧
  s.codec.traceKeys = s.qualities.map QualityConfig.name ∧
  s.codec.currentQuality ∈ s.qualities.map QualityConfig.name

instance : DecidablePred SourceConfigWF := fun s => by
  unfold SourceConfigWF; infer_instance

/-- Goodness of a `GetQualities` result: sorted by ascending bitrate
with exactly one active entry. -/
def QualitiesGood (l : List Quality) : Prop :=
  l.Pairwise (fun a b => a.bitrate ≤ b.bitrate) ∧
  l.countP (fun q => q.active) = 1

instance : DecidablePred QualitiesGood := fun l => by
  unfold QualitiesGood; infer_instance

/-! ## Theorems -/

/-- Claim C2: the AIMD rate-controller transition is total on
{Hold, Increase, Decrease} × {Over, Normal, Under} with values in
{Hold, Increase, Decrease}, and matches the spec table entry by
entry. -/
theorem c2_aimd_transition_table :
    (∀ s ∈ [stateHold, stateIncrease, stateDecrease],
      ∀ u ∈ [usageOver, usageNormal, usageUnder],
        stateTransition s u ∈ [stateHold, stateIncrease, stateDecrease]) ∧
    stateTransition stateHold usageOver = stateDecrease ∧
    stateTransition stateHold usageNormal = stateIncrease ∧
    stateTransition stateHold usageUnder = stateHold ∧
    stateTransition stateIncrease usageOver = stateDecrease ∧
    stateTransition stateIncrease usageNormal = stateIncrease ∧
    stateTransition stateIncrease usageUnder = stateHold ∧
    stateTransition stateDecrease usageOver = stateDecrease ∧
    stateTransition stateDecrease usageNormal = stateHold ∧
    stateTransition stateDecrease usageUnder = stateHold := by
  decide

/-- Witness for C2: totality instantiated at (Hold, Over). -/
theorem c2_aimd_transition_table_witness :
    stateTransition stateHold usageOver ∈ [stateHold, stateIncrease, stateDecrease] :=
  c2_aimd_transition_table.1 stateHold (by decide) usageOver (by decide)

/-- Claim C10: `TraceCodec.SetQuality` is atomic on error — an unknown
quality returns an error and leaves the current quality unchanged, a
known quality returns nil and becomes the current quality. -/
theorem c10_set_quality_atomic (c : TraceCodec) (q : String) :
    (q ∉ c.traceKeys →
      (tcSetQuality c q).2.isSome = true ∧
      tcGetCurrentQuality (tcSetQuality c q).1 = tcGetCurrentQuality c) ∧
    (q ∈ c.traceKeys →
      (tcSetQuality c q).2 = none ∧
      tcGetCurrentQuality (tcSetQuality c q).1 = q) := by
  constructor <;> intro h <;> simp [tcSetQuality, tcGetCurrentQuality, h]

/-- Witness for C10 on a concrete codec: a failed and a successful
switch. -/
theorem c10_set_quality_atomic_witness :
    (tcSetQuality ⟨["a", "b"], "a"⟩ "z").2.isSome = true ∧
    tcGetCurrentQuality (tcSetQuality ⟨["a", "b"], "a"⟩ "z").1 = "a" ∧
    (tcSetQuality ⟨["a", "b"], "a"⟩ "b").2 = none ∧
    tcGetCurrentQuality (tcSetQuality ⟨["a", "b"], "a"⟩ "b").1 = "b" := by
  refine ⟨?_, ?_, ?_, ?_⟩
  · exact ((c10_set_quality_atomic ⟨["a", "b"], "a"⟩ "z").1 (by decide)).1
  · exact ((c10_set_quality_atomic ⟨["a", "b"], "a"⟩ "z").1 (by decide)).2
  · exact ((c10_set_quality_atomic ⟨["a", "b"], "a"⟩ "b").2 (by decide)).1
  · exact ((c10_set_quality_atomic ⟨["a", "b"], "a"⟩ "b").2 (by decide)).2

/-- Claim C4 (code bug): on a single well-formed source with qualities
low (100 bps, inactive) and high (900 bps, active) and video target
100 bps (`SetTargetBitrate(125)`), the lower loop selects the active
quality at slice position `j = 0` and evaluates `sourceQualities[j-1]`,
a Go runtime panic, where the spec's rule would lower high to low. -/
theorem c4_lower_loop_panics :
    SourcesWF [[{ name := "low", bitrate := 100, active := false },
                { name := "high", bitrate := 900, active := true }]] ∧
    simulcastSetTarget
      [[{ name := "low", bitrate := 100, active := false },
        { name := "high", bitrate := 900, active := true }]] 100 =
      AllocResult.panic := by
  decide

/-- Counterexample to C8: three acknowledgments 10 ms apart (departure
equal to arrival) make the controller process the singleton group
containing only the second acknowledgment. -/
theorem c8_counterexample :
    ((dcRun newDelayController
        [{ sequenceNumber := 0, size := 1, departure := 0, arrival := 0 },
         { sequenceNumber := 1, size := 1, departure := 10000000, arrival := 10000000 },
         { sequenceNumber := 2, size := 1, departure := 20000000, arrival := 20000000 }]).processed.map
      List.length) = [1] := by
  decide

/-- Counterexample to C3 as stated: with non-decreasing timestamps and
non-negative target rates but a negative `UseBudget` byte count, the
token count exceeds `MaxTokensInBudget`. -/
theorem c3_counterexample :
    chronoNonNegRates 0 [BudgetOp.useBudget (-1000) 0] = true ∧
    (runBudgetOps (newIntervalBudget 8000 500000000 0)
        [BudgetOp.useBudget (-1000) 0]).maxTokensInBudget = 4000000 ∧
    (runBudgetOps (newIntervalBudget 8000 500000000 0)
        [BudgetOp.useBudget (-1000) 0]).tokenRemaining = 8000000 := by
  decide

/-- Claim C1: the arrival-group join rule, stated as the claim's
disjunction over the head and last of the current group. -/
theorem c1_arrival_group_join_rule (a : ArrivalGroupAccumulator) (ack : Acknowledgment)
    (h : a.next ≠ []) (hb : a.burstInterval = 5000000) (hm : a.maxBurstDuration = 100000000) :
    agaOnPacketAcked a ack =
      if ack.departure - (a.next.head h).departure < 5000000 ∨
          ((ack.arrival - (a.next.head h).arrival) -
              (ack.departure - (a.next.head h).departure) < 0 ∧
            ack.arrival - (a.next.getLast h).arrival ≤ 5000000 ∧
            ack.arrival - (a.next.head h).arrival < 100000000)
        then ({ a with next := a.next ++ [ack] }, none)
        else ({ a with next := [ack] }, some a.next) := by
  obtain ⟨next, bi, mb⟩ := a
  simp only at hb hm
  subst hb; subst hm
  cases next with
  | nil => exact absurd rfl h
  | cons first rest =>
    simp only [agaOnPacketAcked, List.head_cons]
    by_cases h1 : ack.departure - first.departure < 5000000
    · simp [h1]
    · by_cases h2 : (ack.arrival - first.arrival) - (ack.departure - first.departure) < 0 ∧
          ack.arrival - ((first :: rest).getLast (List.cons_ne_nil _ _)).arrival ≤ 5000000 ∧
          ack.arrival - first.arrival < 100000000
      · simp [h1, h2]
      · simp [h1, h2]

/-- Witness for C1: an acknowledgment 1 ms after the group head joins
the group. -/
theorem c1_arrival_group_join_rule_witness :
    agaOnPacketAcked
      { next := [{ sequenceNumber := 0, size := 0, departure := 0, arrival := 0 }],
        burstInterval := 5000000, maxBurstDuration := 100000000 }
      { sequenceNumber := 1, size := 0, departure := 1000000, arrival := 2000000 } =
      ({ next := [{ sequenceNumber := 0, size := 0, departure := 0, arrival := 0 },
                  { sequenceNumber := 1, size := 0, departure := 1000000, arrival := 2000000 }],
         burstInterval := 5000000, maxBurstDuration := 100000000 }, none) := by
  rw [c1_arrival_group_join_rule _ _ (by simp) rfl rfl]
  decide

/-! Budget invariant lemmas for the amended C3. -/

/-- Division by 10^6 preserves non-negativity. -/
theorem durMilliseconds_nonneg {d : Int} (h : 0 ≤ d) : 0 ≤ durMilliseconds d :=
  Int.tdiv_nonneg h (by norm_num)

/-- Refilling preserves the bounds when time moves forward. -/
theorem increaseBudget_wf {b : IntervalBudget} {now : Int}
    (hb : BudgetWF b) (ht : b.lastIncreased ≤ now) :
    BudgetWF (increaseBudget b now) := by
  obtain ⟨⟨h1, h2⟩, h3, h4, h5⟩ := hb
  have hnt : 0 ≤ b.targetRateTokensPerMillisec * durMilliseconds (now - b.lastIncreased) :=
    mul_nonneg h4 (durMilliseconds_nonneg (by omega))
  simp only [increaseBudget, BudgetWF, BudgetInv]
  exact ⟨⟨le_min (by omega) (by omega), min_le_right _ _⟩, h3, h4, h5⟩

/-- Setting a non-negative target rate preserves the bounds. -/
theorem setTargetRate_wf {b : IntervalBudget} {rate now : Int}
    (hb : BudgetWF b) (ht : b.lastIncreased ≤ now) (hr : 0 ≤ rate) :
    BudgetWF (setTargetRate b rate now) := by
  obtain ⟨⟨h1, h2⟩, h3, h4, h5⟩ := increaseBudget_wf hb ht
  have hmax : 0 ≤ durMilliseconds (increaseBudget b now).window * rate :=
    mul_nonneg (durMilliseconds_nonneg h5) hr
  simp only [setTargetRate, BudgetWF, BudgetInv, clip]
  exact ⟨⟨le_min (le_max_right _ _) (by omega), min_le_right _ _⟩, hmax, hr, h5⟩

/-- Debiting a non-negative byte count preserves the bounds. -/
theorem useBudget_wf {b : IntervalBudget} {bytes now : Int}
    (hb : BudgetWF b) (ht : b.lastIncreased ≤ now) (hn : 0 ≤ bytes) :
    BudgetWF (useBudget b bytes now) := by
  obtain ⟨⟨h1, h2⟩, h3, h4, h5⟩ := increaseBudget_wf hb ht
  have htk : 0 ≤ bytes * 8000 := by positivity
  simp only [useBudget, BudgetWF, BudgetInv]
  exact ⟨⟨le_max_right _ _, max_le (by omega) (by omega)⟩, h3, h4, h5⟩

/-- Every operation leaves its timestamp as `lastIncreased`. -/
theorem applyBudgetOp_lastIncreased (b : IntervalBudget) (op : BudgetOp) :
    (applyBudgetOp b op).lastIncreased = op.now := by
  cases op <;> rfl

/-- One operation preserves the bounds under the amended conditions. -/
theorem applyBudgetOp_wf {b : IntervalBudget} {op : BudgetOp}
    (hb : BudgetWF b) (ht : b.lastIncreased ≤ op.now)
    (hop : match op with
           | BudgetOp.setTargetRate r _ => 0 ≤ r
           | BudgetOp.useBudget n _ => 0 ≤ n
           | _ => True) :
    BudgetWF (applyBudgetOp b op) := by
  cases op with
  | setTargetRate r t => exact setTargetRate_wf hb ht hop
  | useBudget n t => exact useBudget_wf hb ht hop
  | bytesRemaining t => exact increaseBudget_wf hb ht
  | increaseBudget t => exact increaseBudget_wf hb ht

/-- Chronological well-formed runs preserve the bounds. -/
theorem runBudgetOps_wf : ∀ (ops : List BudgetOp) (b : IntervalBudget),
    BudgetWF b → chronoNonNegOps b.lastIncreased ops = true →
    BudgetWF (runBudgetOps b ops) := by
  intro ops
  induction ops with
  | nil => intro b hb _; exact hb
  | cons op rest ih =>
    intro b hb hch
    simp only [chronoNonNegOps, Bool.and_eq_true, decide_eq_true_eq] at hch
    obtain ⟨⟨ht, hop⟩, hrest⟩ := hch
    have hstep : BudgetWF (applyBudgetOp b op) := by
      apply applyBudgetOp_wf hb ht
      cases op with
      | setTargetRate r t => exact of_decide_eq_true hop
      | useBudget n t => exact of_decide_eq_true hop
      | bytesRemaining t => trivial
      | increaseBudget t => trivial
    have hlast := applyBudgetOp_lastIncreased b op
    exact ih (applyBudgetOp b op) hstep (by rw [hlast]; exact hrest)

/-- Amended C3: with a non-negative window, non-negative target rates,
non-negative `UseBudget` byte counts and non-decreasing timestamps,
every operation sequence keeps the tokens within
`[-MaxTokensInBudget, MaxTokensInBudget]`. -/
theorem c3_token_bounds_amended (window rate0 t0 : Int) (ops : List BudgetOp)
    (hw : 0 ≤ window) (hr : 0 ≤ rate0)
    (hch : chronoNonNegOps t0 ops = true) :
    BudgetInv (runBudgetOps (newIntervalBudget rate0 window t0) ops) := by
  have hzero : BudgetWF
      { window := window, lastIncreased := t0, targetRateTokensPerMillisec := 0,
        maxTokensInBudget := 0, tokenRemaining := 0 } := by
    exact ⟨⟨by simp, by simp⟩, le_refl 0, le_refl 0, hw⟩
  have hinit : BudgetWF (newIntervalBudget rate0 window t0) :=
    setTargetRate_wf hzero (le_refl t0) hr
  exact (runBudgetOps_wf ops _ hinit hch).1

/-- Witness for the amended C3 on a concrete run. -/
theorem c3_token_bounds_amended_witness :
    BudgetInv (runBudgetOps (newIntervalBudget 8000 500000000 0)
      [BudgetOp.useBudget 1000 5000000, BudgetOp.setTargetRate 16000 10000000]) :=
  c3_token_bounds_amended 500000000 8000 0 _ (by decide) (by decide) (by decide)

/-! Amended C8: every processed group is non-empty. -/

/-- Any group added to `processed` by one step is non-empty. -/
theorem dcOnPacketAcked_processed (c : DelayController) (ack : Acknowledgment) :
    ∀ g ∈ (dcOnPacketAcked c ack).processed, g ∈ c.processed ∨ 1 ≤ g.length := by
  unfold dcOnPacketAcked
  cases h : agaOnPacketAcked c.aga ack with
  | mk aga' em =>
    cases em with
    | none => exact fun g hg => Or.inl hg
    | some next =>
      by_cases h0 : next.length = 0
      · simp only [h0, if_true]
        exact fun g hg => Or.inl hg
      · by_cases h1 : c.last.length = 0
        · simp only [h0, h1, if_false, if_true]
          exact fun g hg => Or.inl hg
        · intro g hg
          simp only [h0, h1, if_false, List.mem_append, List.mem_singleton] at hg
          rcases hg with hg | hg
          · exact Or.inl hg
          · subst hg; omega

/-- Amended C8: every group that reaches the inter-group delay
computation is non-empty (single-sample groups can occur, see the
counterexample). -/
theorem c8_processed_nonempty_amended (acks : List Acknowledgment) :
    ∀ g ∈ (dcRun newDelayController acks).processed, 1 ≤ g.length := by
  suffices h : ∀ (c : DelayController), (∀ g ∈ c.processed, 1 ≤ g.length) →
      ∀ g ∈ (dcRun c acks).processed, 1 ≤ g.length by
    apply h
    simp [newDelayController]
  induction acks with
  | nil => intro c hc; exact hc
  | cons a rest ih =>
    intro c hc
    have step := dcOnPacketAcked_processed c a
    exact ih _ (fun g hg => (step g hg).elim (hc g) id)

/-- Witness for the amended C8: the singleton group processed in the
counterexample run is non-empty. -/
theorem c8_processed_nonempty_amended_witness :
    1 ≤ List.length
      [({ sequenceNumber := 1, size := 1, departure := 10000000,
          arrival := 10000000 } : Acknowledgment)] :=
  c8_processed_nonempty_amended
    [{ sequenceNumber := 0, size := 1, departure := 0, arrival := 0 },
     { sequenceNumber := 1, size := 1, departure := 10000000, arrival := 10000000 },
     { sequenceNumber := 2, size := 1, departure := 20000000, arrival := 20000000 }]
    _ (by decide)

/-! Simulcast source qualities (C7). -/

/-- The sort in `GetQualities` yields a bitrate-ascending list. -/
theorem getQualities_sorted (s : TraceCodecSource) :
    List.Pairwise (fun a b : Quality => a.bitrate ≤ b.bitrate) (getQualities s) := by
  unfold getQualities
  refine List.Pairwise.imp ?_ (List.sorted_mergeSort ?_ ?_ _)
  · intro a b hab
    exact of_decide_eq_true hab
  · intro a b c hab hbc
    exact decide_eq_true (le_trans (of_decide_eq_true hab) (of_decide_eq_true hbc))
  · intro a b
    rcases le_total a.bitrate b.bitrate with h | h
    · simp [h]
    · simp [h]

/-- With distinct configured names and a current quality among them,
exactly one entry of `GetQualities` is active. -/
theorem getQualities_one_active (s : TraceCodecSource) (hwf : SourceConfigWF s) :
    (getQualities s).countP (fun q => q.active) = 1 := by
  obtain ⟨hnd, hkeys, hmem⟩ := hwf
  unfold getQualities
  rw [List.Perm.countP_eq _ (List.mergeSort_perm _ _), List.countP_map]
  have h1 : ((fun q : Quality => q.active) ∘ (fun q : QualityConfig =>
      ({ name := q.name, bitrate := q.bitrate,
         active := q.name == s.codec.currentQuality } : Quality))) =
      fun q : QualityConfig => q.name == s.codec.currentQuality := rfl
  rw [h1]
  have h2 : (s.qualities.countP fun q => q.name == s.codec.currentQuality) =
      List.count s.codec.currentQuality (s.qualities.map QualityConfig.name) := by
    rw [List.count_eq_countP, List.countP_map]
    rfl
  rw [h2]
  exact List.count_eq_one_of_mem hnd hmem

/-- Both the successful and the failing `SetQuality` preserve the
configuration well-formedness. -/
theorem sourceSetQuality_wf (s : TraceCodecSource) (q : String)
    (hwf : SourceConfigWF s) : SourceConfigWF (sourceSetQuality s q).1 := by
  obtain ⟨hnd, hkeys, hmem⟩ := hwf
  unfold sourceSetQuality tcSetQuality
  by_cases h : q ∈ s.codec.traceKeys
  · simp only [h, if_true]
    refine ⟨hnd, hkeys, ?_⟩
    rw [← hkeys]
    exact h
  · simp only [h, if_false]
    exact ⟨hnd, hkeys, hmem⟩

/-- Claim C7: for a `TraceCodecSource` with distinct configured quality
names including the codec's current quality, `GetQualities` is sorted
ascending by bitrate with exactly one active entry, and this still
holds after any successful or failed `SetQuality`. -/
theorem c7_qualities_sorted_one_active (s : TraceCodecSource) (hwf : SourceConfigWF s) :
    QualitiesGood (getQualities s) ∧
    ∀ q, QualitiesGood (getQualities (sourceSetQuality s q).1) := by
  refine ⟨⟨getQualities_sorted s, getQualities_one_active s hwf⟩, fun q => ?_⟩
  exact ⟨getQualities_sorted _, getQualities_one_active _ (sourceSetQuality_wf s q hwf)⟩

/-- Witness for C7 on a concrete two-quality source, including a
successful switch. -/
theorem c7_qualities_sorted_one_active_witness :
    QualitiesGood (getQualities
      { qualities := [⟨"high", 900⟩, ⟨"low", 100⟩],
        codec := { traceKeys := ["high", "low"], currentQuality := "low" } }) ∧
    QualitiesGood (getQualities (sourceSetQuality
      { qualities := [⟨"high", 900⟩, ⟨"low", 100⟩],
        codec := { traceKeys := ["high", "low"], currentQuality := "low" } } "high").1) :=
  ⟨(c7_qualities_sorted_one_active _ (by decide)).1,
   (c7_qualities_sorted_one_active _ (by decide)).2 "high"⟩

/-! Round-robin fairness (C6). -/

/-- Closed form of `n` consecutive `Next` calls from a valid state. -/
theorem rrNextN_eq (items : List Nat) :
    ∀ (k i : Nat), i < items.length →
      rrNextN ⟨items, i⟩ k =
        (((List.range k).map fun j => items.getD ((i + j) % items.length) 0),
         ⟨items, (i + k) % items.length⟩) := by
  intro k
  induction k with
  | zero =>
    intro i hi
    simp [rrNextN, Nat.mod_eq_of_lt hi]
  | succ k ih =>
    intro i hi
    have hpos : 0 < items.length := lt_of_le_of_lt (Nat.zero_le i) hi
    have hstep : rrNext ⟨items, i⟩ =
        (some (items.get ⟨i, hi⟩), ⟨items, (i + 1) % items.length⟩) := by
      simp [rrNext, hi]
    have hlt : (i + 1) % items.length < items.length := Nat.mod_lt _ hpos
    have hj : ∀ j : Nat, ((i + 1) % items.length + j) % items.length =
        (i + (j + 1)) % items.length := by
      intro j
      rw [Nat.mod_add_mod]
      congr 1
      omega
    simp only [rrNextN, hstep, ih ((i + 1) % items.length) hlt]
    simp only [Prod.mk.injEq]
    refine ⟨?_, ?_⟩
    · rw [List.range_succ_eq_map, List.map_cons, List.map_map]
      congr 1
      · rw [Nat.add_zero, Nat.mod_eq_of_lt hi]
        exact (List.getD_eq_getElem items 0 hi).symm
      · apply List.map_congr_left
        intro j _
        simp only [Function.comp, Nat.succ_eq_add_one]
        rw [hj j]
    · rw [hj k]

/-- One full cycle enumerates a rotation of the item list. -/
theorem map_range_cycle_eq_rotate (items : List Nat) (i : Nat) (hi : i < items.length) :
    ((List.range items.length).map fun j => items.getD ((i + j) % items.length) 0) =
      items.rotate i := by
  have hpos : 0 < items.length := lt_of_le_of_lt (Nat.zero_le i) hi
  apply List.ext_getElem
  · simp [List.length_rotate]
  · intro n h1 h2
    have hn : n < items.length := by simpa using h1
    rw [List.getElem_map, List.getElem_range, List.getElem_rotate]
    rw [Nat.add_comm i n, List.getD_eq_getElem items 0 (Nat.mod_lt _ hpos)]

/-- A full cycle returns every item once (as a rotation) and restores
the state. -/
theorem rrNextN_full_cycle (rr : RoundRobin) (hidx : rr.index < rr.items.length) :
    rrNextN rr rr.items.length = (rr.items.rotate rr.index, rr) := by
  obtain ⟨items, i⟩ := rr
  simp only at hidx
  show rrNextN ⟨items, i⟩ items.length = (items.rotate i, ⟨items, i⟩)
  rw [rrNextN_eq items items.length i hidx, map_range_cycle_eq_rotate items i hidx]
  simp only [Prod.mk.injEq]
  refine ⟨trivial, ?_⟩
  rw [Nat.add_mod_right, Nat.mod_eq_of_lt hidx]

/-- Count of one item over a window extended by a full cycle. -/
theorem rrNextN_count_shift (items : List Nat) (i m : Nat) (x : Nat)
    (hi : i < items.length) (hx : x ∈ items) (hnd : items.Nodup) :
    ((rrNextN ⟨items, i⟩ (items.length + m)).1).count x =
      1 + ((rrNextN ⟨items, i⟩ m).1).count x := by
  rw [rrNextN_eq items (items.length + m) i hi, rrNextN_eq items m i hi]
  simp only
  rw [List.range_add, List.map_append, List.count_append, List.map_map]
  congr 1
  · rw [map_range_cycle_eq_rotate items i hi]
    rw [(List.rotate_perm items i).count_eq x]
    exact List.count_eq_one_of_mem hnd hx
  · apply congrArg
    apply List.map_congr_left
    intro j _
    simp only [Function.comp]
    have harith : i + (items.length + j) = i + j + items.length := by ring
    rw [harith, Nat.add_mod_right]

/-- Count of one item over a window shorter than a cycle is at most 1. -/
theorem rrNextN_count_prefix (items : List Nat) (i r : Nat) (x : Nat)
    (hi : i < items.length) (hx : x ∈ items) (hnd : items.Nodup)
    (hr : r ≤ items.length) :
    ((rrNextN ⟨items, i⟩ r).1).count x ≤ 1 := by
  have hfull : ((rrNextN ⟨items, i⟩ items.length).1).count x = 1 := by
    rw [rrNextN_eq items items.length i hi, map_range_cycle_eq_rotate items i hi]
    rw [(List.rotate_perm items i).count_eq x]
    exact List.count_eq_one_of_mem hnd hx
  have hsplit : List.range items.length =
      List.range r ++ (List.range (items.length - r)).map fun a => r + a := by
    rw [← List.range_add]
    congr 1
    omega
  rw [rrNextN_eq items items.length i hi] at hfull
  rw [rrNextN_eq items r i hi]
  simp only at hfull ⊢
  rw [hsplit, List.map_append, List.count_append] at hfull
  omega

/-- Count of one item over any window, in closed form modulo cycles. -/
theorem rrNextN_count_cycles (items : List Nat) (i : Nat) (x : Nat)
    (hi : i < items.length) (hx : x ∈ items) (hnd : items.Nodup) :
    ∀ q r, ((rrNextN ⟨items, i⟩ (items.length * q + r)).1).count x =
      q + ((rrNextN ⟨items, i⟩ r).1).count x := by
  intro q
  induction q with
  | zero => simp
  | succ q ih =>
    intro r
    have harith : items.length * (q + 1) + r = items.length + (items.length * q + r) := by
      ring
    rw [harith, rrNextN_count_shift items i _ x hi hx hnd, ih r]
    omega

/-- Service-count bounds over any number of consecutive calls. -/
theorem rrNextN_count_bounds (rr : RoundRobin) (x : Nat)
    (hnd : rr.items.Nodup) (hidx : rr.index < rr.items.length) (hx : x ∈ rr.items)
    (k : Nat) :
    k / rr.items.length ≤ ((rrNextN rr k).1).count x ∧
    ((rrNextN rr k).1).count x ≤ k / rr.items.length + 1 := by
  obtain ⟨items, i⟩ := rr
  simp only at hnd hidx hx ⊢
  have hpos : 0 < items.length := lt_of_le_of_lt (Nat.zero_le i) hidx
  have hk : items.length * (k / items.length) + k % items.length = k :=
    Nat.div_add_mod k items.length
  have hmod : k % items.length < items.length := Nat.mod_lt _ hpos
  have hcount := rrNextN_count_cycles items i x hidx hx hnd (k / items.length) (k % items.length)
  rw [hk] at hcount
  have hpre := rrNextN_count_prefix items i (k % items.length) x hidx hx hnd (le_of_lt hmod)
  omega

/-- Claim C6: from any valid round-robin state with distinct enrolled
SSRCs, a window of `n = Size` consecutive `Next` calls returns every
enrolled SSRC exactly once, and over any number of consecutive calls
the service counts of two enrolled SSRCs differ by at most 1. -/
theorem c6_round_robin_fair (rr : RoundRobin) (hnd : rr.items.Nodup)
    (hidx : rr.index < rr.items.length) :
    (∀ x ∈ rr.items, ((rrNextN rr rr.items.length).1).count x = 1) ∧
    ∀ k, ∀ x ∈ rr.items, ∀ y ∈ rr.items,
      ((rrNextN rr k).1).count x ≤ ((rrNextN rr k).1).count y + 1 := by
  constructor
  · intro x hx
    rw [rrNextN_full_cycle rr hidx]
    rw [(List.rotate_perm rr.items rr.index).count_eq x]
    exact List.count_eq_one_of_mem hnd hx
  · intro k x hx y hy
    have hx' := rrNextN_count_bounds rr x hnd hidx hx k
    have hy' := rrNextN_count_bounds rr y hnd hidx hy k
    omega

/-- Witness for C6: three SSRCs, one full cycle and a 7-call window. -/
theorem c6_round_robin_fair_witness :
    ((rrNextN ⟨[4, 5, 6], 1⟩ 3).1).count 4 = 1 ∧
    ((rrNextN ⟨[4, 5, 6], 1⟩ 7).1).count 5 ≤ ((rrNextN ⟨[4, 5, 6], 1⟩ 7).1).count 6 + 1 :=
  ⟨(c6_round_robin_fair ⟨[4, 5, 6], 1⟩ (by decide) (by decide)).1 4 (by decide),
   (c6_round_robin_fair ⟨[4, 5, 6], 1⟩ (by decide) (by decide)).2 7 5 (by decide) 6 (by decide)⟩

/-! Padding collection (C5). -/

/-- Byte accounting of one round-robin cycle: the byte counter advances
by the total of the additions; a fitless cycle adds nothing; a cycle
with additions ends strictly below the budget; additions come from the
last-packet table. -/
theorem processCycle_spec (lp : List (Nat × Nat)) (maxB : Nat) :
    ∀ (outs : List Nat) (bytes : Nat),
      (processCycle lp maxB outs bytes).2.1 =
        bytes + paddingTotal (processCycle lp maxB outs bytes).1 ∧
      ((processCycle lp maxB outs bytes).2.2 = false →
        (processCycle lp maxB outs bytes).1 = []) ∧
      ((processCycle lp maxB outs bytes).2.2 = true →
        (processCycle lp maxB outs bytes).1 ≠ []) ∧
      ((processCycle lp maxB outs bytes).1 ≠ [] →
        (processCycle lp maxB outs bytes).2.1 < maxB) ∧
      (∀ p ∈ (processCycle lp maxB outs bytes).1, lp.lookup p.1 = some p.2) := by
  intro outs
  induction outs with
  | nil =>
    intro bytes
    simp [processCycle, paddingTotal]
  | cons ssrc rest ih =>
    intro bytes
    cases hl : lp.lookup ssrc with
    | none =>
      simpa only [processCycle, hl] using ih bytes
    | some size =>
      by_cases hfit : maxB - bytes ≤ size
      · simpa only [processCycle, hl, if_pos hfit] using ih bytes
      · obtain ⟨ha, hb, hc, hd, he⟩ := ih (bytes + size)
        simp only [processCycle, hl, if_neg hfit]
        refine ⟨?_, ?_, ?_, ?_, ?_⟩
        · simp only [paddingTotal, List.map_cons, List.sum_cons] at ha ⊢
          omega
        · intro h
          simp at h
        · intro _
          simp
        · intro _
          by_cases hr : (processCycle lp maxB rest (bytes + size)).1 = []
          · have ha' := ha
            rw [hr] at ha'
            simp only [paddingTotal, List.map_nil, List.sum_nil, Nat.add_zero] at ha'
            omega
          · exact hd hr
        · intro p hp
          rcases List.mem_cons.mp hp with hp | hp
          · subst hp
            exact hl
          · exact he p hp

/-- A valid round-robin state is restored by the full cycle inside
`paddingCycle`. -/
theorem paddingCycle_state (st : PacerState) (maxB bytes : Nat)
    (h : st.rr.index < st.rr.items.length ∨ st.rr.items = []) :
    (paddingCycle st maxB bytes).1 = st := by
  rcases h with h | h
  · simp only [paddingCycle, rrNextN_full_cycle st.rr h]
  · obtain ⟨⟨items, i⟩, lp⟩ := st
    simp only at h
    subst h
    rfl

/-- A non-empty padding list of positive sizes has positive total. -/
theorem paddingTotal_pos (l : List (Nat × Nat)) (h : l ≠ [])
    (hall : ∀ p ∈ l, 1 ≤ p.2) : 1 ≤ paddingTotal l := by
  cases l with
  | nil => exact absurd rfl h
  | cons p rest =>
    have hp := hall p (List.mem_cons_self p rest)
    simp only [paddingTotal, List.map_cons, List.sum_cons]
    omega

/-- The outer padding loop terminates within `maxBytes + 1` fuel, never
exceeds the budget, and exits with the budget exhausted or after a
fitless cycle. -/
theorem getPaddingLoop_spec (maxB : Nat) (st : PacerState)
    (hpos : ∀ s v, st.lastPacket.lookup s = some v → 1 ≤ v)
    (hidx : st.rr.index < st.rr.items.length ∨ st.rr.items = []) :
    ∀ (fuel : Nat) (bytes : Nat) (acc : List (Nat × Nat)),
      paddingTotal acc = bytes →
      maxB ≤ fuel + bytes →
      ∃ res bf,
        getPaddingLoop fuel st maxB bytes acc = some (res, st, bf) ∧
        paddingTotal res = bf ∧
        (bf < maxB ∨ bf = bytes) ∧
        (maxB ≤ bf ∨ (paddingCycle st maxB bf).2.2.2 = false) := by
  intro fuel
  induction fuel with
  | zero =>
    intro bytes acc hacc hfuel
    have hge : ¬ bytes < maxB := by omega
    refine ⟨acc, bytes, ?_, hacc, Or.inr rfl, Or.inl (by omega)⟩
    simp only [getPaddingLoop, if_neg hge]
  | succ fuel ih =>
    intro bytes acc hacc hfuel
    by_cases hlt : bytes < maxB
    · have hstate := paddingCycle_state st maxB bytes hidx
      obtain ⟨ha, hb, hc, hd, he⟩ := processCycle_spec st.lastPacket maxB
        (rrNextN st.rr st.rr.items.length).1 bytes
      have e1 : (paddingCycle st maxB bytes).2.1 =
          (processCycle st.lastPacket maxB (rrNextN st.rr st.rr.items.length).1 bytes).1 := rfl
      have e2 : (paddingCycle st maxB bytes).2.2.1 =
          (processCycle st.lastPacket maxB (rrNextN st.rr st.rr.items.length).1 bytes).2.1 := rfl
      have e3 : (paddingCycle st maxB bytes).2.2.2 =
          (processCycle st.lastPacket maxB (rrNextN st.rr st.rr.items.length).1 bytes).2.2 := rfl
      by_cases hfits : (paddingCycle st maxB bytes).2.2.2 = true
      · have hne := hc (e3 ▸ hfits)
        have htotpos : 1 ≤ paddingTotal (processCycle st.lastPacket maxB
            (rrNextN st.rr st.rr.items.length).1 bytes).1 :=
          paddingTotal_pos _ hne (fun p hp => hpos p.1 p.2 (he p hp))
        have hlt' := hd hne
        have hacc' : paddingTotal (acc ++ (paddingCycle st maxB bytes).2.1) =
            (paddingCycle st maxB bytes).2.2.1 := by
          rw [e1, e2, ha]
          simp only [paddingTotal, List.map_append, List.sum_append] at hacc ⊢
          omega
        obtain ⟨res, bf, heq, htot, hdisj, hexit⟩ :=
          ih (paddingCycle st maxB bytes).2.2.1 (acc ++ (paddingCycle st maxB bytes).2.1)
            hacc' (by rw [e2]; omega)
        refine ⟨res, bf, ?_, htot, ?_, hexit⟩
        · simp only [getPaddingLoop, if_pos hlt]
          rw [if_pos hfits, hstate]
          exact heq
        · rcases hdisj with hdisj | hdisj
          · exact Or.inl hdisj
          · refine Or.inl ?_
            rw [hdisj, e2]
            exact hlt'
      · have hfits0 : (paddingCycle st maxB bytes).2.2.2 = false :=
          Bool.eq_false_iff.mpr hfits
        have hnil := hb (e3 ▸ hfits0)
        have hbytes : (paddingCycle st maxB bytes).2.2.1 = bytes := by
          rw [e2, ha, hnil]
          simp [paddingTotal]
        refine ⟨acc, bytes, ?_, hacc, Or.inr rfl, Or.inr hfits0⟩
        simp only [getPaddingLoop, if_pos hlt]
        rw [if_neg hfits, hstate, hbytes, e1, hnil, List.append_nil]
    · refine ⟨acc, bytes, ?_, hacc, Or.inr rfl, Or.inl (by omega)⟩
      simp only [getPaddingLoop, if_neg hlt]

/-- Claim C5: for every budget and every pacer state whose stored
packets have positive marshalled size, `getPadding` terminates with a
padding list of total size at most `maxBytes`; with no RTX-enrolled
SSRCs it returns no padding; and it stops exactly because the budget is
exhausted or because a full round-robin cycle (rerun from the final
state, which the fitless cycle restores) finds no fitting packet. -/
theorem c5_get_padding_bounded (st : PacerState) (maxBytes : Nat)
    (hpos : ∀ s v, st.lastPacket.lookup s = some v → 1 ≤ v)
    (hidx : st.rr.index < st.rr.items.length ∨ st.rr.items = []) :
    ∃ res st' bf,
      getPadding st maxBytes = some (res, st', bf) ∧
      paddingTotal res ≤ maxBytes ∧
      (st.rr.items = [] → res = []) ∧
      (maxBytes ≤ bf ∨ (paddingCycle st' maxBytes bf).2.2.2 = false) := by
  by_cases hempty : st.rr.items.length = 0
  · refine ⟨[], st, 0, ?_, by simp [paddingTotal], fun _ => rfl, Or.inr ?_⟩
    · simp only [getPadding, if_pos hempty]
    · have hnil : st.rr.items = [] := List.length_eq_zero.mp hempty
      obtain ⟨⟨items, i⟩, lp⟩ := st
      simp only at hnil
      subst hnil
      rfl
  · obtain ⟨res, bf, heq, htot, hdisj, hexit⟩ :=
      getPaddingLoop_spec maxBytes st hpos hidx (maxBytes + 1) 0 [] rfl (by omega)
    refine ⟨res, st, bf, ?_, ?_, ?_, hexit⟩
    · simp only [getPadding, if_neg hempty]
      exact heq
    · omega
    · intro h
      exact absurd (by rw [h]; rfl) hempty

/-- Witness for C5: one enrolled SSRC with a 50-byte packet and a
120-byte budget yields two padding packets totalling 100 bytes and a
fitless final cycle. -/
theorem c5_get_padding_bounded_witness :
    ∃ res st' bf,
      getPadding { rr := { items := [7], index := 0 }, lastPacket := [(7, 50)] } 120 =
        some (res, st', bf) ∧
      paddingTotal res ≤ 120 ∧
      (({ rr := { items := [7], index := 0 },
          lastPacket := [(7, 50)] } : PacerState).rr.items = [] → res = []) ∧
      (120 ≤ bf ∨ (paddingCycle st' 120 bf).2.2.2 = false) :=
  c5_get_padding_bounded { rr := { items := [7], index := 0 }, lastPacket := [(7, 50)] } 120
    (by
      intro s v h
      by_cases h7 : s = 7
      · subst h7
        simp [List.lookup] at h
        omega
      · have hb : (s == 7) = false := by simpa using h7
        simp [List.lookup, hb] at h)
    (by decide)

/-! Simulcast allocator idempotence (C9). -/

/-- A candidate selected by a best-so-far fold comes from the list. -/
theorem foldl_pick_mem
    (f : Int × Option (Nat × Nat × Int) → Nat × Nat × Int → Int × Option (Nat × Nat × Int))
    (hf : ∀ acc x, (f acc x).2 = acc.2 ∨ (f acc x).2 = some x) :
    ∀ (l : List (Nat × Nat × Int)) (acc : Int × Option (Nat × Nat × Int))
      (c : Nat × Nat × Int),
      (l.foldl f acc).2 = some c → c ∈ l ∨ acc.2 = some c := by
  intro l
  induction l with
  | nil => intro acc c h; exact Or.inr h
  | cons x xs ih =>
    intro acc c h
    rw [List.foldl_cons] at h
    rcases ih (f acc x) c h with hm | hm
    · exact Or.inl (List.mem_cons_of_mem _ hm)
    · rcases hf acc x with he | he
      · rw [he] at hm
        exact Or.inr hm
      · rw [he] at hm
        injection hm with hm
        subst hm
        exact Or.inl (List.mem_cons_self _ _)

/-- The min selection keeps the accumulator or takes the candidate. -/
theorem pickMinCand_step (acc : Int × Option (Nat × Nat × Int)) (x : Nat × Nat × Int) :
    ((if x.2.2 < acc.1 then (x.2.2, some x) else acc) :
        Int × Option (Nat × Nat × Int)).2 = acc.2 ∨
    ((if x.2.2 < acc.1 then (x.2.2, some x) else acc) :
        Int × Option (Nat × Nat × Int)).2 = some x := by
  by_cases h : x.2.2 < acc.1
  · rw [if_pos h]; exact Or.inr rfl
  · rw [if_neg h]; exact Or.inl rfl

/-- The max selection keeps the accumulator or takes the candidate. -/
theorem pickMaxCand_step (acc : Int × Option (Nat × Nat × Int)) (x : Nat × Nat × Int) :
    ((if acc.1 < x.2.2 then (x.2.2, some x) else acc) :
        Int × Option (Nat × Nat × Int)).2 = acc.2 ∨
    ((if acc.1 < x.2.2 then (x.2.2, some x) else acc) :
        Int × Option (Nat × Nat × Int)).2 = some x := by
  by_cases h : acc.1 < x.2.2
  · rw [if_pos h]; exact Or.inr rfl
  · rw [if_neg h]; exact Or.inl rfl

/-- Characterization of a raise-loop candidate: an active quality at
position `j` of source `i`, with a next-higher quality available. -/
theorem raiseCandidate_spec (sources : List (List Quality)) (i j : Nat) (b : Int)
    (hp : pickMinCand (raiseCands sources) = some (i, j, b)) :
    ∃ qs, sources.get? i = some qs ∧ j + 1 < qs.length ∧
      ∃ q, qs.get? j = some q ∧ q.active = true ∧ q.bitrate = b := by
  have hmem : (i, j, b) ∈ raiseCands sources := by
    rcases foldl_pick_mem _ pickMinCand_step (raiseCands sources) _ _ hp with hm | hm
    · exact hm
    · cases hm
  unfold raiseCands at hmem
  rw [List.mem_flatMap] at hmem
  obtain ⟨p, hpmem, hcp⟩ := hmem
  obtain ⟨iq, qs⟩ := p
  obtain ⟨jq, hjmem, hg⟩ := List.mem_filterMap.mp hcp
  obtain ⟨j', q⟩ := jq
  by_cases hact : q.active
  · rw [if_pos hact] at hg
    simp only [Option.some.injEq, Prod.mk.injEq] at hg
    obtain ⟨rfl, rfl, rfl⟩ := hg
    obtain ⟨hilen, hqs⟩ := List.mem_enum hpmem
    dsimp only at hjmem
    obtain ⟨hjlen, hq⟩ := List.mem_enum hjmem
    have hjlen' : j' < qs.length - 1 := by
      have := List.length_take (qs.length - 1) qs
      omega
    refine ⟨qs, ?_, by omega, q, ?_, hact, rfl⟩
    · rw [List.get?_eq_getElem?, List.getElem?_eq_getElem hilen, hqs]
    · rw [List.get?_eq_getElem?, List.getElem?_eq_getElem (show j' < qs.length by omega)]
      have h2 := @List.getElem_take _ qs (qs.length - 1) j' hjlen
      rw [hq, h2]
  · rw [if_neg hact] at hg
    cases hg

/-- Characterization of a lower-loop candidate: an active quality at
position `j + 1` of source `i` (position `j` of the slice). -/
theorem lowerCandidate_spec (sources : List (List Quality)) (i j : Nat) (b : Int)
    (hp : pickMaxCand (lowerCands sources) = some (i, j, b)) :
    ∃ qs, sources.get? i = some qs ∧ j + 1 < qs.length ∧
      ∃ q, qs.get? (j + 1) = some q ∧ q.active = true ∧ q.bitrate = b := by
  have hmem : (i, j, b) ∈ lowerCands sources := by
    rcases foldl_pick_mem _ pickMaxCand_step (lowerCands sources) _ _ hp with hm | hm
    · exact hm
    · cases hm
  unfold lowerCands at hmem
  rw [List.mem_flatMap] at hmem
  obtain ⟨p, hpmem, hcp⟩ := hmem
  obtain ⟨iq, qs⟩ := p
  obtain ⟨jq, hjmem, hg⟩ := List.mem_filterMap.mp hcp
  obtain ⟨j', q⟩ := jq
  by_cases hact : q.active
  · rw [if_pos hact] at hg
    simp only [Option.some.injEq, Prod.mk.injEq] at hg
    obtain ⟨rfl, rfl, rfl⟩ := hg
    obtain ⟨hilen, hqs⟩ := List.mem_enum hpmem
    dsimp only at hjmem
    obtain ⟨hjlen, hq⟩ := List.mem_enum hjmem
    have hjlen' : j' < qs.length - 1 := by
      have := List.length_drop 1 qs
      omega
    refine ⟨qs, ?_, by omega, q, ?_, hact, rfl⟩
    · rw [List.get?_eq_getElem?, List.getElem?_eq_getElem hilen, hqs]
    · rw [List.get?_eq_getElem?, List.getElem?_eq_getElem (show j' + 1 < qs.length by omega)]
      have h2 := @List.getElem_drop _ qs 1 j' hjlen
      have h3 : qs[1 + j'] = qs[j' + 1] := by
        congr 1
        omega
      rw [hq, h2, h3]
  · rw [if_neg hact] at hg
    cases hg

/-- With distinct names, filtering by the name of a member yields
exactly that member. -/
theorem filter_name_eq_singleton (qs : List Quality) (x : Quality) (hx : x ∈ qs)
    (hnd : (qs.map Quality.name).Nodup) :
    qs.filter (fun q => q.name == x.name) = [x] := by
  induction qs with
  | nil => cases hx
  | cons y rest ih =>
    rw [List.map_cons, List.nodup_cons] at hnd
    obtain ⟨hny, hnd'⟩ := hnd
    rcases List.mem_cons.mp hx with rfl | hx'
    · rw [List.filter_cons_of_pos (by simp)]
      have hrest : rest.filter (fun q => q.name == x.name) = [] := by
        rw [List.filter_eq_nil_iff]
        intro q hq hqn
        exact hny (List.mem_map.mpr ⟨q, hq, by simpa using hqn.symm⟩)
      rw [hrest]
    · have hyx : ¬ (y.name == x.name) = true := by
        intro hqn
        have hqn' : y.name = x.name := by simpa using hqn
        exact hny (List.mem_map.mpr ⟨x, hx', hqn'.symm⟩)
      rw [@List.filter_cons_of_neg _ (fun q : Quality => q.name == x.name) y rest hyx]
      exact ih hx' hnd'

/-- With exactly one active quality, the active sum is the bitrate of
any active member. -/
theorem activeSum_of_one_active (qs : List Quality) (j : Nat) (q : Quality)
    (hcnt : qs.countP (fun q => q.active) = 1)
    (hq : qs.get? j = some q) (ha : q.active = true) :
    activeSum qs = q.bitrate := by
  have hmem : q ∈ qs := List.get?_mem hq
  have hlen : (qs.filter fun q => q.active).length = 1 := by
    rw [← List.countP_eq_length_filter]
    exact hcnt
  have hmf : q ∈ qs.filter (fun q => q.active) := List.mem_filter.mpr ⟨hmem, ha⟩
  obtain ⟨a, hfa⟩ := List.length_eq_one.mp hlen
  rw [hfa, List.mem_singleton] at hmf
  subst hmf
  unfold activeSum
  rw [hfa]
  simp

/-- Setting a member's name succeeds and rewrites the active flags. -/
theorem setQualityByName_eq (qs : List Quality) (x : Quality) (hx : x ∈ qs) :
    setQualityByName qs x.name =
      some (qs.map fun q => { q with active := q.name == x.name }) := by
  unfold setQualityByName
  rw [if_pos]
  exact List.any_eq_true.mpr ⟨x, hx, by simp⟩

/-- After activating a member by name, the active sum is its bitrate. -/
theorem activeSum_after_set (qs : List Quality) (x : Quality) (hx : x ∈ qs)
    (hnd : (qs.map Quality.name).Nodup) :
    activeSum (qs.map fun q => { q with active := q.name == x.name }) = x.bitrate := by
  unfold activeSum
  rw [List.filter_map]
  have hcomp : ((fun q : Quality => q.active) ∘
      fun q : Quality => { q with active := q.name == x.name }) =
      fun q : Quality => q.name == x.name := rfl
  rw [hcomp, filter_name_eq_singleton qs x hx hnd]
  simp

/-- Activating a member by name preserves source well-formedness. -/
theorem sourceWF_after_set (qs : List Quality) (x : Quality) (hx : x ∈ qs)
    (hwf : SourceWF qs) :
    SourceWF (qs.map fun q => { q with active := q.name == x.name }) := by
  obtain ⟨hsort, hcnt, hnd⟩ := hwf
  refine ⟨?_, ?_, ?_⟩
  · exact List.Pairwise.map _ (fun a b h => h) hsort
  · rw [List.countP_map]
    have hcomp : ((fun q : Quality => q.active) ∘
        fun q : Quality => { q with active := q.name == x.name }) =
        fun q : Quality => q.name == x.name := rfl
    rw [hcomp, List.countP_eq_length_filter, filter_name_eq_singleton qs x hx hnd]
    rfl
  · have hnames : (qs.map fun q : Quality =>
        { q with active := q.name == x.name }).map Quality.name = qs.map Quality.name := by
      rw [List.map_map]
      rfl
    rw [hnames]
    exact hnd

/-- Sum after replacing one entry of an integer list. -/
theorem int_sum_set : ∀ (l : List Int) (i : Nat) (a : Int), i < l.length →
    (l.set i a).sum = l.sum - l.getD i 0 + a := by
  intro l
  induction l with
  | nil =>
    intro i a h
    simp at h
  | cons x xs ih =>
    intro i a h
    cases i with
    | zero => simp [List.set]; ring
    | succ n =>
      simp only [List.set, List.sum_cons, List.getD_cons_succ]
      rw [ih n a (by simpa using h)]
      ring

/-- Bitrate accounting for replacing one source. -/
theorem currentBitrateOf_set (sources : List (List Quality)) (i : Nat)
    (qs qs' : List Quality) (hget : sources.get? i = some qs) :
    currentBitrateOf (sources.set i qs') =
      currentBitrateOf sources - activeSum qs + activeSum qs' := by
  have hlen : i < sources.length := by
    rcases List.get?_eq_some.mp hget with ⟨h, _⟩
    exact h
  have h1 : (sources.map activeSum).get? i = some (activeSum qs) := by
    rw [List.get?_map, hget]
    rfl
  have hgd : (sources.map activeSum).getD i 0 = activeSum qs := by
    rw [List.getD_eq_get?, h1]
    rfl
  unfold currentBitrateOf
  rw [List.map_set, int_sum_set _ _ _ (by simpa using hlen), hgd]

/-- The raise loop preserves source well-formedness and keeps
`currentBitrate` equal to the sum of active bitrates. -/
theorem raiseLoop_wf : ∀ (fuel : Nat) (sources : List (List Quality)) (cur target : Int)
    (s' : List (List Quality)) (cur' : Int),
    SourcesWF sources → cur = currentBitrateOf sources →
    raiseLoop fuel sources cur target = LoopRes.done s' cur' →
    SourcesWF s' ∧ cur' = currentBitrateOf s' := by
  intro fuel
  induction fuel with
  | zero =>
    intro sources cur target s' cur' hwf hcur h
    simp only [raiseLoop] at h
    split at h
    · cases h
    · simp only [LoopRes.done.injEq] at h
      obtain ⟨rfl, rfl⟩ := h
      exact ⟨hwf, hcur⟩
  | succ fuel ih =>
    intro sources cur target s' cur' hwf hcur h
    simp only [raiseLoop] at h
    split at h
    · split at h
      · simp only [LoopRes.done.injEq] at h
        obtain ⟨rfl, rfl⟩ := h
        exact ⟨hwf, hcur⟩
      · rename_i c i j b hp
        split at h
        · cases h
        · rename_i qs hqs
          split at h
          · cases h
          · rename_i nxt hnxt
            split at h
            · simp only [LoopRes.done.injEq] at h
              obtain ⟨rfl, rfl⟩ := h
              exact ⟨hwf, hcur⟩
            · split at h
              · cases h
              · rename_i qs' hset
                obtain ⟨qs0, hqs0, hjl, q, hq, hact, hb⟩ :=
                  raiseCandidate_spec sources i j b hp
                rw [hqs] at hqs0
                injection hqs0 with hqs0
                subst hqs0
                have hqsmem : qs ∈ sources := List.get?_mem hqs
                have hqswf : SourceWF qs := hwf qs hqsmem
                have hnmem : nxt ∈ qs := List.get?_mem hnxt
                rw [setQualityByName_eq qs nxt hnmem] at hset
                injection hset with hset
                subst hset
                have hwf' : SourcesWF (sources.set i
                    (qs.map fun q => { q with active := q.name == nxt.name })) := by
                  intro qs1 hqs1
                  rcases List.mem_or_eq_of_mem_set hqs1 with h1 | h1
                  · exact hwf qs1 h1
                  · subst h1
                    exact sourceWF_after_set qs nxt hnmem hqswf
                have hsum : activeSum qs = b := by
                  rw [activeSum_of_one_active qs j q hqswf.2.1 hq hact]
                  exact hb
                have hcur' : cur + (nxt.bitrate - b) = currentBitrateOf (sources.set i
                    (qs.map fun q => { q with active := q.name == nxt.name })) := by
                  rw [currentBitrateOf_set sources i qs _ hqs,
                    activeSum_after_set qs nxt hnmem hqswf.2.2, hsum]
                  omega
                exact ih _ _ _ _ _ hwf' hcur' h
    · simp only [LoopRes.done.injEq] at h
      obtain ⟨rfl, rfl⟩ := h
      exact ⟨hwf, hcur⟩

/-- The lower loop preserves source well-formedness and keeps
`currentBitrate` equal to the sum of active bitrates. -/
theorem lowerLoop_wf : ∀ (fuel : Nat) (sources : List (List Quality)) (cur target : Int)
    (s' : List (List Quality)) (cur' : Int),
    SourcesWF sources → cur = currentBitrateOf sources →
    lowerLoop fuel sources cur target = LoopRes.done s' cur' →
    SourcesWF s' ∧ cur' = currentBitrateOf s' := by
  intro fuel
  induction fuel with
  | zero =>
    intro sources cur target s' cur' hwf hcur h
    simp only [lowerLoop] at h
    split at h
    · cases h
    · simp only [LoopRes.done.injEq] at h
      obtain ⟨rfl, rfl⟩ := h
      exact ⟨hwf, hcur⟩
  | succ fuel ih =>
    intro sources cur target s' cur' hwf hcur h
    simp only [lowerLoop] at h
    split at h
    · split at h
      · simp only [LoopRes.done.injEq] at h
        obtain ⟨rfl, rfl⟩ := h
        exact ⟨hwf, hcur⟩
      · rename_i c i j b hp
        split at h
        · cases h
        · rename_i qs hqs
          split at h
          · cases h
          · rename_i hj0
            split at h
            · cases h
            · rename_i nxt hnxt
              split at h
              · simp only [LoopRes.done.injEq] at h
                obtain ⟨rfl, rfl⟩ := h
                exact ⟨hwf, hcur⟩
              · split at h
                · cases h
                · rename_i qs' hset
                  obtain ⟨qs0, hqs0, hjl, q, hq, hact, hb⟩ :=
                    lowerCandidate_spec sources i j b hp
                  rw [hqs] at hqs0
                  injection hqs0 with hqs0
                  subst hqs0
                  have hqsmem : qs ∈ sources := List.get?_mem hqs
                  have hqswf : SourceWF qs := hwf qs hqsmem
                  have hnmem : nxt ∈ qs := List.get?_mem hnxt
                  rw [setQualityByName_eq qs nxt hnmem] at hset
                  injection hset with hset
                  subst hset
                  have hwf' : SourcesWF (sources.set i
                      (qs.map fun q => { q with active := q.name == nxt.name })) := by
                    intro qs1 hqs1
                    rcases List.mem_or_eq_of_mem_set hqs1 with h1 | h1
                    · exact hwf qs1 h1
                    · subst h1
                      exact sourceWF_after_set qs nxt hnmem hqswf
                  have hsum : activeSum qs = b := by
                    rw [activeSum_of_one_active qs (j + 1) q hqswf.2.1 hq hact]
                    exact hb
                  have hcur' : cur + (nxt.bitrate - b) = currentBitrateOf (sources.set i
                      (qs.map fun q => { q with active := q.name == nxt.name })) := by
                    rw [currentBitrateOf_set sources i qs _ hqs,
                      activeSum_after_set qs nxt hnmem hqswf.2.2, hsum]
                    omega
                  exact ih _ _ _ _ _ hwf' hcur' h
    · simp only [LoopRes.done.injEq] at h
      obtain ⟨rfl, rfl⟩ := h
      exact ⟨hwf, hcur⟩

/-- The lower loop either makes no step or ends at or above the
target. -/
theorem lowerLoop_done_cases : ∀ (fuel : Nat) (sources : List (List Quality))
    (cur target : Int) (s' : List (List Quality)) (cur' : Int),
    lowerLoop fuel sources cur target = LoopRes.done s' cur' →
    (s' = sources ∧ cur' = cur) ∨ target ≤ cur' := by
  intro fuel
  induction fuel with
  | zero =>
    intro sources cur target s' cur' h
    simp only [lowerLoop] at h
    split at h
    · cases h
    · simp only [LoopRes.done.injEq] at h
      obtain ⟨rfl, rfl⟩ := h
      exact Or.inl ⟨rfl, rfl⟩
  | succ fuel ih =>
    intro sources cur target s' cur' h
    simp only [lowerLoop] at h
    split at h
    · split at h
      · simp only [LoopRes.done.injEq] at h
        obtain ⟨rfl, rfl⟩ := h
        exact Or.inl ⟨rfl, rfl⟩
      · rename_i c i j b hp
        split at h
        · cases h
        · rename_i qs hqs
          split at h
          · cases h
          · rename_i hj0
            split at h
            · cases h
            · rename_i nxt hnxt
              split at h
              · simp only [LoopRes.done.injEq] at h
                obtain ⟨rfl, rfl⟩ := h
                exact Or.inl ⟨rfl, rfl⟩
              · rename_i hnover
                split at h
                · cases h
                · rcases ih _ _ _ _ _ h with ⟨rfl, rfl⟩ | hge
                  · refine Or.inr ?_
                    omega
                  · exact Or.inr hge
    · simp only [LoopRes.done.injEq] at h
      obtain ⟨rfl, rfl⟩ := h
      exact Or.inl ⟨rfl, rfl⟩

/-- The raise loop is a no-op on its own results. -/
theorem raiseLoop_idem : ∀ (fuel : Nat) (sources : List (List Quality)) (cur target : Int)
    (s' : List (List Quality)) (cur' : Int),
    raiseLoop fuel sources cur target = LoopRes.done s' cur' →
    ∀ g, raiseLoop (g + 1) s' cur' target = LoopRes.done s' cur' := by
  intro fuel
  induction fuel with
  | zero =>
    intro sources cur target s' cur' h g
    simp only [raiseLoop] at h
    split at h
    · cases h
    · rename_i hge
      simp only [LoopRes.done.injEq] at h
      obtain ⟨rfl, rfl⟩ := h
      simp only [raiseLoop]
      rw [if_neg hge]
  | succ fuel ih =>
    intro sources cur target s' cur' h g
    simp only [raiseLoop] at h
    split at h
    · rename_i hlt
      split at h
      · rename_i hp
        simp only [LoopRes.done.injEq] at h
        obtain ⟨rfl, rfl⟩ := h
        simp only [raiseLoop, hp]
        rw [if_pos hlt]
      · rename_i c i j b hp
        split at h
        · cases h
        · rename_i qs hqs
          split at h
          · cases h
          · rename_i nxt hnxt
            split at h
            · rename_i hover
              simp only [LoopRes.done.injEq] at h
              obtain ⟨rfl, rfl⟩ := h
              simp only [raiseLoop, hp, hqs, hnxt]
              rw [if_pos hlt, if_pos hover]
            · split at h
              · cases h
              · exact ih _ _ _ _ _ h g
    · rename_i hge
      simp only [LoopRes.done.injEq] at h
      obtain ⟨rfl, rfl⟩ := h
      simp only [raiseLoop]
      rw [if_neg hge]

/-- The lower loop is a no-op on its own results. -/
theorem lowerLoop_idem : ∀ (fuel : Nat) (sources : List (List Quality)) (cur target : Int)
    (s' : List (List Quality)) (cur' : Int),
    lowerLoop fuel sources cur target = LoopRes.done s' cur' →
    ∀ g, lowerLoop (g + 1) s' cur' target = LoopRes.done s' cur' := by
  intro fuel
  induction fuel with
  | zero =>
    intro sources cur target s' cur' h g
    simp only [lowerLoop] at h
    split at h
    · cases h
    · rename_i hge
      simp only [LoopRes.done.injEq] at h
      obtain ⟨rfl, rfl⟩ := h
      simp only [lowerLoop]
      rw [if_neg hge]
  | succ fuel ih =>
    intro sources cur target s' cur' h g
    simp only [lowerLoop] at h
    split at h
    · rename_i hlt
      split at h
      · rename_i hp
        simp only [LoopRes.done.injEq] at h
        obtain ⟨rfl, rfl⟩ := h
        simp only [lowerLoop, hp]
        rw [if_pos hlt]
      · rename_i c i j b hp
        split at h
        · cases h
        · rename_i qs hqs
          split at h
          · cases h
          · rename_i hj0
            split at h
            · cases h
            · rename_i nxt hnxt
              split at h
              · rename_i hunder
                simp only [LoopRes.done.injEq] at h
                obtain ⟨rfl, rfl⟩ := h
                simp only [lowerLoop, hp, hqs, hnxt]
                rw [if_pos hlt, if_neg hj0, if_pos hunder]
              · split at h
                · cases h
                · exact ih _ _ _ _ _ h g
    · rename_i hge
      simp only [LoopRes.done.injEq] at h
      obtain ⟨rfl, rfl⟩ := h
      simp only [lowerLoop]
      rw [if_neg hge]

/-- Claim C9: on well-formed simulcast sources, a second
`SetTargetBitrate` call with the same (already computed) video target
immediately after a successful first call changes no active quality. -/
theorem c9_allocator_idempotent (sources : List (List Quality)) (targetVideo : Int)
    (hwf : SourcesWF sources) (s2 : List (List Quality))
    (hok : simulcastSetTarget sources targetVideo = AllocResult.ok s2) :
    simulcastSetTarget s2 targetVideo = AllocResult.ok s2 := by
  unfold simulcastSetTarget at hok
  cases hr : raiseLoop (allocFuel sources) sources (currentBitrateOf sources) targetVideo with
  | fail => rw [hr] at hok; cases hok
  | panic => rw [hr] at hok; cases hok
  | nofuel => rw [hr] at hok; cases hok
  | done s1 cur1 =>
    rw [hr] at hok
    dsimp only at hok
    cases hl : lowerLoop (allocFuel s1) s1 cur1 targetVideo with
    | fail => rw [hl] at hok; cases hok
    | panic => rw [hl] at hok; cases hok
    | nofuel => rw [hl] at hok; cases hok
    | done s2' cur2 =>
      rw [hl] at hok
      simp only [AllocResult.ok.injEq] at hok
      subst hok
      obtain ⟨hwf1, hcur1⟩ := raiseLoop_wf _ _ _ _ _ _ hwf rfl hr
      obtain ⟨hwf2, hcur2⟩ := lowerLoop_wf _ _ _ _ _ _ hwf1 hcur1 hl
      unfold simulcastSetTarget
      have hraise2 : raiseLoop (allocFuel s2') s2' (currentBitrateOf s2') targetVideo =
          LoopRes.done s2' (currentBitrateOf s2') := by
        rw [← hcur2]
        rcases lowerLoop_done_cases _ _ _ _ _ _ hl with ⟨rfl, rfl⟩ | hge
        · exact raiseLoop_idem _ _ _ _ _ _ hr ((s2'.map List.length).sum)
        · show raiseLoop ((s2'.map List.length).sum + 1) s2' cur2 targetVideo = _
          simp only [raiseLoop]
          rw [if_neg (by omega)]
      rw [hraise2]
      have hlower2 : lowerLoop (allocFuel s2') s2' (currentBitrateOf s2') targetVideo =
          LoopRes.done s2' (currentBitrateOf s2') := by
        rw [← hcur2]
        exact lowerLoop_idem _ _ _ _ _ _ hl ((s2'.map List.length).sum)
      dsimp only
      rw [hlower2]

/-- Witness for C9: after raising the single source from l to h for a
1000 bps video target, a second call leaves h active. -/
theorem c9_allocator_idempotent_witness :
    simulcastSetTarget [[{ name := "l", bitrate := 100, active := false },
                         { name := "h", bitrate := 900, active := true }]] 1000 =
      AllocResult.ok [[{ name := "l", bitrate := 100, active := false },
                       { name := "h", bitrate := 900, active := true }]] :=
  c9_allocator_idempotent
    [[{ name := "l", bitrate := 100, active := true },
      { name := "h", bitrate := 900, active := false }]] 1000 (by decide) _ (by decide)

end Vibe
